import Mathlib

/-!
Verification development for the codex-session-gateway supervisor.

The definitions below are a shallow embedding of the Python sources:
pure functions become Lean functions, SQLite tables become lists of rows,
wall-clock floats become integers (only their ordering matters to the
properties at stake), and the external SHA-256 digest is abstracted as a
function parameter.  Each definition names the source function it embeds.
-/

/-! ## Python-style helpers -/

/-- Truthiness of an optional Python string: None and the empty string are falsy. -/
def pyStrTruthy : Option String → Bool
  | none => false
  | some s => s ≠ ""

/-! ## CodexRunner._build_args_for_prompt (src/codex_runner.py lines 42-74) -/

/-- Configuration fields consumed by the child-process driver when it builds
the argument vector (src/config.py, class Config). -/
structure RunnerConfig where
  codexCliCmd : String
  codexCliArgs : List String
  codexCliInputMode : String
  codexCliResumeId : Option String
  codexCliApprovalsMode : Option String
  codexCliSkipGitCheck : Bool
deriving DecidableEq, Repr

/-- Embeds the Python expression resume_id or config.codex_cli_resume_id
(an empty string is falsy and falls through to the configured default). -/
def activeResumeId (cfg : RunnerConfig) (resumeId : Option String) : Option String :=
  if pyStrTruthy resumeId then resumeId else cfg.codexCliResumeId

/-- Embeds CodexRunner._build_args_for_prompt.  Returns the argument vector
together with the use_exec flag.  The warning emitted for an ignored
approvals mode in arg input mode is a log side effect and is not modelled. -/
def buildArgsForPrompt (cfg : RunnerConfig) (prompt : String) (resumeId : Option String)
    (outputLastMessagePath : Option String) : List String × Bool :=
  let active := activeResumeId cfg resumeId
  if pyStrTruthy active then
    let args := [cfg.codexCliCmd, "exec"]
    let args := if cfg.codexCliSkipGitCheck then args ++ ["--skip-git-repo-check"] else args
    let args :=
      if pyStrTruthy outputLastMessagePath then
        args ++ ["--output-last-message", outputLastMessagePath.getD ""]
      else args
    let args := args ++ cfg.codexCliArgs
    let args := args ++ ["resume", active.getD ""]
    let args := if cfg.codexCliInputMode = "arg" then args ++ [prompt] else args ++ ["-"]
    (args, true)
  else
    let args := [cfg.codexCliCmd]
    let args :=
      if pyStrTruthy outputLastMessagePath then
        args ++ ["--output-last-message", outputLastMessagePath.getD ""]
      else args
    let args := args ++ cfg.codexCliArgs
    let args := if cfg.codexCliInputMode = "arg" then args ++ [prompt] else args
    (args, false)

/-! ## Orchestrator._run_once result classification (src/orchestrator.py lines 311-329) -/

/-- Run status values (src/models.py, class RunStatus). -/
inductive RunStatus where
  | running
  | done
  | error
  | canceled
  | timeout
deriving DecidableEq, Repr

/-- Embeds the classification performed by Orchestrator._run_once after the
driver returns: the last status token received through on_status takes
priority, then a nonzero return code, else DONE.  The second component is
the error detail stored on the run. -/
def classifyRun (statusOverride : Option String) (returnCode : Int) :
    RunStatus × Option String :=
  if statusOverride = some "timeout" then (RunStatus.timeout, some "运行超时")
  else if statusOverride = some "canceled" then (RunStatus.canceled, some "任务被取消")
  else if returnCode ≠ 0 then (RunStatus.error, some ("退出码 " ++ toString returnCode))
  else (RunStatus.done, none)

/-- C3: in resume mode with stdin input and no output-last-message path, the
argument vector is exactly the agent binary, exec, the skip-git flag, the
configured extra args, the resume positionals, and the stdin sentinel:
with codex_cli_cmd codex, codex_cli_args [--model, x], skip_git_check true,
resume_id resume-abc, input_mode stdin, the argv is
[codex, exec, --skip-git-repo-check, --model, x, resume, resume-abc, -]. -/
theorem resume_arg_construction (prompt : String) :
    buildArgsForPrompt
      { codexCliCmd := "codex"
        codexCliArgs := ["--model", "x"]
        codexCliInputMode := "stdin"
        codexCliResumeId := none
        codexCliApprovalsMode := some "3"
        codexCliSkipGitCheck := true }
      prompt (some "resume-abc") none
    = (["codex", "exec", "--skip-git-repo-check", "--model", "x",
        "resume", "resume-abc", "-"], true) := by
  rfl

/-- C2: run classification after the driver returns.  A timeout status token
gives TIMEOUT and a canceled token gives CANCELED regardless of the return
code; otherwise a nonzero return code gives ERROR whose detail names the
exit code, and a zero return code gives DONE. -/
theorem run_classification (statusOverride : Option String) (returnCode : Int) :
    classifyRun (some "timeout") returnCode = (RunStatus.timeout, some "运行超时")
    ∧ classifyRun (some "canceled") returnCode = (RunStatus.canceled, some "任务被取消")
    ∧ (statusOverride ≠ some "timeout" → statusOverride ≠ some "canceled" →
        returnCode ≠ 0 →
        classifyRun statusOverride returnCode
          = (RunStatus.error, some ("退出码 " ++ toString returnCode)))
    ∧ (statusOverride ≠ some "timeout" → statusOverride ≠ some "canceled" →
        classifyRun statusOverride 0 = (RunStatus.done, none)) := by
  refine ⟨rfl, rfl, ?_, ?_⟩
  · intro h1 h2 h3
    simp [classifyRun, h1, h2, h3]
  · intro h1 h2
    simp [classifyRun, h1, h2]

/-- Concrete instantiation of run_classification: a timeout token beats exit
code 7, exit code 3 without a token is ERROR with detail naming code 3, and
exit code 0 without a token is DONE. -/
theorem run_classification_witness :
    ((none : Option String) ≠ some "timeout" ∧ (none : Option String) ≠ some "canceled"
      ∧ (3 : Int) ≠ 0)
    ∧ classifyRun (some "timeout") 7 = (RunStatus.timeout, some "运行超时")
    ∧ classifyRun none 3 = (RunStatus.error, some ("退出码 " ++ toString (3 : Int)))
    ∧ classifyRun none 0 = (RunStatus.done, none) := by
  refine ⟨by decide, (run_classification none 3).1, ?_, ?_⟩
  · exact (run_classification none 3).2.2.1 (by decide) (by decide) (by decide)
  · exact (run_classification none 0).2.2.2 (by decide) (by decide)

/-! ## StreamBroker._split and TelegramStreamSender._split_text
(src/stream_broker.py lines 58-67, src/adapters/telegram_adapter.py lines 80-89;
the two functions are textually identical).  Python strings are modelled as
lists of characters; Python len counts codepoints. -/

/-- Embeds the while loop of the splitter: repeatedly slice off chunk_limit
characters.  With a zero limit the Python loop never advances; that case is
unreachable under the positive-limit guard assumed by the claims and is
modelled as producing no chunks. -/
def splitLoop (limit : Nat) (content : List Char) : List (List Char) :=
  if content.isEmpty then []
  else if limit = 0 then []
  else content.take limit :: splitLoop limit (content.drop limit)
termination_by content.length
decreasing_by
  simp only [List.length_drop]
  have hne : ¬ content.isEmpty = true := by assumption
  have hz : ¬ limit = 0 := by assumption
  have hne2 : content ≠ [] := by simpa [List.isEmpty_iff] using hne
  have hlen : 0 < content.length := List.length_pos.mpr hne2
  omega

/-- Embeds StreamBroker._split: content at most chunk_limit characters long is
returned whole, longer content goes through the slicing loop. -/
def splitChunks (limit : Nat) (content : List Char) : List (List Char) :=
  if content.length ≤ limit then [content] else splitLoop limit content

/-- UTF-8 byte size of a character list, matching len of the Python UTF-8
encoding of the corresponding string. -/
def utf8Length (l : List Char) : Nat := (l.map Char.utf8Size).sum

theorem splitLoop_flatten (limit : Nat) (hl : limit ≠ 0) (content : List Char) :
    (splitLoop limit content).flatten = content := by
  rw [splitLoop]
  split
  · rename_i h1
    have hne : content = [] := by simpa [List.isEmpty_iff] using h1
    simp [hne]
  · have ih := splitLoop_flatten limit hl (content.drop limit)
    simp [hl, ih, List.take_append_drop]
termination_by content.length
decreasing_by
  simp only [List.length_drop]
  have hne : ¬ content.isEmpty = true := by assumption
  have hne2 : content ≠ [] := by simpa [List.isEmpty_iff] using hne
  have hlen : 0 < content.length := List.length_pos.mpr hne2
  omega

theorem splitLoop_chunk_le (limit : Nat) (content : List Char) :
    ∀ chunk ∈ splitLoop limit content, chunk.length ≤ limit := by
  intro chunk hc
  rw [splitLoop] at hc
  split at hc
  · simp at hc
  · split at hc
    · simp at hc
    · rcases List.mem_cons.mp hc with h | h
      · subst h
        exact List.length_take_le limit content
      · exact splitLoop_chunk_le limit (content.drop limit) chunk h
termination_by content.length
decreasing_by
  simp only [List.length_drop]
  have hne : ¬ content.isEmpty = true := by assumption
  have hz : ¬ limit = 0 := by assumption
  have hne2 : content ≠ [] := by simpa [List.isEmpty_iff] using hne
  have hlen : 0 < content.length := List.length_pos.mpr hne2
  omega

/-- C5 fails as stated: the splitter measures chunk_limit in characters, not
bytes.  At chunk_limit 1 the one-character string made of the single CJK
character U+6D4B is returned as a single chunk whose UTF-8 size is 3 bytes,
exceeding the claimed 1-byte bound. -/
theorem chunk_byte_bound_counterexample :
    splitChunks 1 ("测".data) = ["测".data] ∧ ¬ utf8Length ("测".data) ≤ 1 := by
  constructor
  · rfl
  · decide

/-- C5 amended: for every content and positive chunk_limit, every chunk
produced by the splitter is at most chunk_limit characters (codepoints) long
and concatenating the chunks in order reproduces the content exactly. -/
theorem chunk_split_amended (limit : Nat) (content : List Char) (h : 0 < limit) :
    (∀ chunk ∈ splitChunks limit content, chunk.length ≤ limit)
    ∧ (splitChunks limit content).flatten = content := by
  constructor
  · intro chunk hc
    rw [splitChunks] at hc
    split at hc
    · rename_i hle
      rcases List.mem_singleton.mp hc with rfl
      exact hle
    · exact splitLoop_chunk_le limit content chunk hc
  · rw [splitChunks]
    split
    · simp
    · exact splitLoop_flatten limit (Nat.pos_iff_ne_zero.mp h) content

/-- Concrete instantiation of chunk_split_amended at limit 2 on a 3-character
string. -/
theorem chunk_split_amended_witness :
    0 < 2
    ∧ ((∀ chunk ∈ splitChunks 2 ("abc".data), chunk.length ≤ 2)
        ∧ (splitChunks 2 ("abc".data)).flatten = "abc".data) :=
  ⟨by decide, chunk_split_amended 2 ("abc".data) (by decide)⟩

/-! ## CodexRunner._summarize_reasoning (src/codex_runner.py lines 236-266) -/

/-- Python str.lower, modelled per character (the keywords involved are ASCII
or CJK, on which per-character lowering agrees with Python). -/
def pyLower (s : String) : String := String.mk (s.data.map Char.toLower)

/-- Tests whether the second list is an initial segment of the first. -/
def startsWithChars : List Char → List Char → Bool
  | _, [] => true
  | [], _ :: _ => false
  | c :: cs, d :: ds => c = d && startsWithChars cs ds

/-- Substring occurrence at any position, the semantics of the Python
expression needle in haystack. -/
def hasInfixChars (l sub : List Char) : Bool :=
  match l with
  | [] => startsWithChars [] sub
  | c :: cs => startsWithChars (c :: cs) sub || hasInfixChars cs sub

/-- Python membership test needle in haystack on strings. -/
def pyContains (haystack needle : String) : Bool :=
  hasInfixChars haystack.data needle.data

/-- Python whitespace predicate on the ASCII range (str.strip default). -/
def isPySpace (c : Char) : Bool :=
  c = ' ' || c = '\t' || c = '\n' || c = '\r' || c = '\x0b' || c = '\x0c'

/-- Python str.rstrip on a character list. -/
def rstripChars (l : List Char) : List Char := (l.reverse.dropWhile isPySpace).reverse

/-- Python str.strip: drop leading and trailing whitespace. -/
def pyStrip (s : String) : String := String.mk (rstripChars (s.data.dropWhile isPySpace))

/-- Sequential tag accumulation of _summarize_reasoning: the Python method
runs one if per table row, appending the row tag when any keyword matched. -/
def tagsFromRows (acc : List String) : List (Bool × String) → List String
  | [] => acc
  | row :: rest => tagsFromRows (if row.1 then acc ++ [row.2] else acc) rest

/-- The fixed keyword table of the specification, in source order. -/
def reasoningKeywordTable : List (List String × String) :=
  [ (["plan", "规划", "计划"], "制定计划"),
    (["analyze", "analysis", "评估", "分析"], "分析需求"),
    (["config", "配置", "env", "环境"], "检查配置"),
    (["error", "fail", "失败", "问题"], "排查问题"),
    (["test", "pytest", "playwright", "测试"], "执行测试"),
    (["deploy", "systemctl", "service", "服务"], "部署/服务操作"),
    (["refactor", "重构"], "重构整理"),
    (["readme", "doc", "文档"], "更新文档"),
    (["verify", "验证"], "验证结果"),
    (["final", "summary", "最终", "总结"], "整理最终回复"),
    (["sqlite", "db", "数据库", "jsonl"], "检查数据与日志") ]

/-- Embeds CodexRunner._summarize_reasoning: lower the text, run the eleven
keyword checks in order, fall back to the default tag, join the first four
tags and report the stripped length. -/
def summarizeReasoning (text : String) : String :=
  let lowered := pyLower text
  let tags := tagsFromRows []
    [ ((["plan", "规划", "计划"]).any fun w => pyContains lowered w, "制定计划"),
      ((["analyze", "analysis", "评估", "分析"]).any fun w => pyContains lowered w, "分析需求"),
      ((["config", "配置", "env", "环境"]).any fun w => pyContains lowered w, "检查配置"),
      ((["error", "fail", "失败", "问题"]).any fun w => pyContains lowered w, "排查问题"),
      ((["test", "pytest", "playwright", "测试"]).any fun w => pyContains lowered w, "执行测试"),
      ((["deploy", "systemctl", "service", "服务"]).any fun w => pyContains lowered w, "部署/服务操作"),
      ((["refactor", "重构"]).any fun w => pyContains lowered w, "重构整理"),
      ((["readme", "doc", "文档"]).any fun w => pyContains lowered w, "更新文档"),
      ((["verify", "验证"]).any fun w => pyContains lowered w, "验证结果"),
      ((["final", "summary", "最终", "总结"]).any fun w => pyContains lowered w, "整理最终回复"),
      ((["sqlite", "db", "数据库", "jsonl"]).any fun w => pyContains lowered w, "检查数据与日志") ]
  let tags := if tags.isEmpty then tags ++ ["整理任务与输出"] else tags
  let summary := String.intercalate "；" (tags.take 4)
  let trimmed := pyStrip text
  "内部推理摘要：" ++ summary ++ "（已隐藏原文，长度" ++ toString trimmed.length ++ "字）"

/-- The output shape claimed by the specification: the tags of the keyword
table whose keywords occur in the lowered text, at most four joined with the
CJK semicolon, the fixed default tag when none match, and the character
length of the stripped input. -/
def summarizeReasoningSpec (text : String) : String :=
  let lowered := pyLower text
  let matched :=
    (reasoningKeywordTable.filter fun kt => kt.1.any fun w => pyContains lowered w).map
      fun kt => kt.2
  let tags := if matched.isEmpty then ["整理任务与输出"] else matched
  "内部推理摘要：" ++ String.intercalate "；" (tags.take 4)
    ++ "（已隐藏原文，长度" ++ toString (pyStrip text).length ++ "字）"

theorem tagsFromRows_eq (rows : List (Bool × String)) :
    ∀ acc, tagsFromRows acc rows = acc ++ (rows.filter fun r => r.1).map fun r => r.2 := by
  induction rows with
  | nil => intro acc; simp [tagsFromRows]
  | cons row rest ih =>
    intro acc
    cases hb : row.1 <;> simp [tagsFromRows, hb, ih]

theorem isEmpty_append_default (l : List String) (d : String) :
    (if l.isEmpty then l ++ [d] else l) = (if l.isEmpty then [d] else l) := by
  cases hl : l.isEmpty
  · simp
  · have : l = [] := by simpa [List.isEmpty_iff] using hl
    simp [this]

/-- C7: for every reasoning text, the summarizer returns exactly the string
claimed by the specification: the matched tags of the fixed keyword table
(at most four, joined with the CJK semicolon, defaulting to the fixed tag
when none match) wrapped in the fixed frame, with N the character length of
the whitespace-stripped input. -/
theorem reasoning_summary_shape (text : String) :
    summarizeReasoning text = summarizeReasoningSpec text := by
  simp only [summarizeReasoning, summarizeReasoningSpec, tagsFromRows_eq,
    reasoningKeywordTable, List.filter_cons, List.filter_nil, List.map_nil,
    List.nil_append, apply_ite (List.map fun r : Bool × String => r.2),
    apply_ite (List.map fun kt : List String × String => kt.2), List.map_cons,
    isEmpty_append_default]


/-! ## CodexRunner._normalize_text_for_dedupe (src/codex_runner.py lines 268-280)
The normalization feeding every dedup hash: CRLF and CR to LF, right-strip
each line, drop trailing empty lines, rejoin with LF.  SHA-256 over the
UTF-8 encoding is opaque to the properties at stake and is abstracted as a
function parameter. -/

/-- Python text.replace of the CRLF pair by LF, scanning left to right. -/
def replaceCRLF : List Char → List Char
  | [] => []
  | [c] => [c]
  | c :: d :: rest =>
    if c = '\r' ∧ d = '\n' then '\n' :: replaceCRLF rest
    else c :: replaceCRLF (d :: rest)

/-- Python text.replace of every remaining CR by LF. -/
def replaceCR (l : List Char) : List Char :=
  l.map fun c => if c = '\r' then '\n' else c

/-- Python text.split on LF: the empty string yields one empty piece. -/
def splitLF : List Char → List (List Char)
  | [] => [[]]
  | c :: rest =>
    if c = '\n' then [] :: splitLF rest
    else
      match splitLF rest with
      | [] => [[c]]
      | l :: ls => (c :: l) :: ls

/-- Python join of pieces with the LF separator. -/
def joinLF : List (List Char) → List Char
  | [] => []
  | [l] => l
  | l :: rest => l ++ '\n' :: joinLF rest

/-- The while loop popping trailing empty lines. -/
def dropTrailingEmpty (ls : List (List Char)) : List (List Char) :=
  (ls.reverse.dropWhile List.isEmpty).reverse

/-- Embeds CodexRunner._normalize_text_for_dedupe on character lists. -/
def normalizeTextForDedupe (l : List Char) : List Char :=
  if l.isEmpty then []
  else
    let normalized := replaceCR (replaceCRLF l)
    let lines := (splitLF normalized).map rstripChars
    let lines2 := dropTrailingEmpty lines
    joinLF lines2

/-- The dedup hash: SHA-256 of the UTF-8 encoding of the normalized text,
with the digest step abstracted as a parameter. -/
def hashTextForDedupe (sha256utf8 : List Char → String) (l : List Char) : String :=
  sha256utf8 (normalizeTextForDedupe l)

theorem not_cr_replaceCR (l : List Char) : '\r' ∉ replaceCR l := by
  intro h
  rcases List.mem_map.mp h with ⟨a, _, ha⟩
  by_cases hr : a = '\r' <;> simp [hr] at ha

theorem replaceCRLF_eq_self : ∀ (l : List Char), '\r' ∉ l → replaceCRLF l = l
  | [], _ => rfl
  | [_], _ => rfl
  | c :: d :: rest, h => by
    have hc : c ≠ '\r' := fun hh => h (hh ▸ List.mem_cons_self c (d :: rest))
    have h2 : '\r' ∉ d :: rest := fun hh => h (List.mem_cons_of_mem c hh)
    have hcd : ¬ (c = '\r' ∧ d = '\n') := fun hx => hc hx.1
    rw [replaceCRLF, if_neg hcd, replaceCRLF_eq_self (d :: rest) h2]

theorem replaceCR_eq_self (l : List Char) (h : '\r' ∉ l) : replaceCR l = l := by
  unfold replaceCR
  rw [List.map_congr_left, List.map_id]
  intro a ha
  have : a ≠ '\r' := fun hh => h (hh ▸ ha)
  simp [this]

theorem splitLF_ne_nil (l : List Char) : splitLF l ≠ [] := by
  cases l with
  | nil => simp [splitLF]
  | cons c rest =>
    by_cases hc : c = '\n'
    · simp [splitLF, hc]
    · cases hs : splitLF rest <;> simp [splitLF, hc, hs]

theorem mem_splitLF_no_newline (l : List Char) :
    ∀ p ∈ splitLF l, '\n' ∉ p := by
  induction l with
  | nil =>
    intro p hp
    simp [splitLF] at hp
    simp [hp]
  | cons c rest ih =>
    intro p hp
    by_cases hc : c = '\n'
    · simp only [splitLF, if_pos hc] at hp
      rcases List.mem_cons.mp hp with rfl | hmem
      · simp
      · exact ih p hmem
    · simp only [splitLF, if_neg hc] at hp
      cases hs : splitLF rest with
      | nil => exact absurd hs (splitLF_ne_nil rest)
      | cons q qs =>
        rw [hs] at hp
        rcases List.mem_cons.mp hp with rfl | hmem
        · intro hmm
          rcases List.mem_cons.mp hmm with h1 | h1
          · exact hc h1.symm
          · exact ih q (hs ▸ List.mem_cons_self q qs) h1
        · exact ih p (hs ▸ List.mem_cons_of_mem q hmem)

theorem mem_splitLF_subset (l : List Char) :
    ∀ p ∈ splitLF l, ∀ c ∈ p, c ∈ l := by
  induction l with
  | nil =>
    intro p hp
    simp [splitLF] at hp
    simp [hp]
  | cons c rest ih =>
    intro p hp d hd
    by_cases hc : c = '\n'
    · simp only [splitLF, if_pos hc] at hp
      rcases List.mem_cons.mp hp with rfl | hmem
      · simp at hd
      · exact List.mem_cons_of_mem c (ih p hmem d hd)
    · simp only [splitLF, if_neg hc] at hp
      cases hs : splitLF rest with
      | nil => exact absurd hs (splitLF_ne_nil rest)
      | cons q qs =>
        rw [hs] at hp
        rcases List.mem_cons.mp hp with rfl | hmem
        · rcases List.mem_cons.mp hd with rfl | h1
          · exact List.mem_cons_self d rest
          · exact List.mem_cons_of_mem c (ih q (hs ▸ List.mem_cons_self q qs) d h1)
        · exact List.mem_cons_of_mem c (ih p (hs ▸ List.mem_cons_of_mem q hmem) d hd)

theorem splitLF_single (l : List Char) (h : '\n' ∉ l) : splitLF l = [l] := by
  induction l with
  | nil => rfl
  | cons c rest ih =>
    have hc : c ≠ '\n' := fun hh => h (hh ▸ List.mem_cons_self c rest)
    have h2 : '\n' ∉ rest := fun hh => h (List.mem_cons_of_mem c hh)
    simp [splitLF, hc, ih h2]

theorem splitLF_append (l t : List Char) (h : '\n' ∉ l) :
    splitLF (l ++ '\n' :: t) = l :: splitLF t := by
  induction l with
  | nil => simp [splitLF]
  | cons c l ih =>
    have hc : c ≠ '\n' := fun hh => h (hh ▸ List.mem_cons_self c l)
    have h2 : '\n' ∉ l := fun hh => h (List.mem_cons_of_mem c hh)
    simp only [List.cons_append, splitLF, if_neg hc]
    first
      | rw [ih h2]
      | rw [show splitLF (List.append l ('\n' :: t)) = l :: splitLF t from ih h2]

theorem joinLF_cons_cons (l r : List Char) (rest : List (List Char)) :
    joinLF (l :: r :: rest) = l ++ '\n' :: joinLF (r :: rest) := rfl

theorem splitLF_joinLF (ls : List (List Char)) (h1 : ls ≠ [])
    (h2 : ∀ p ∈ ls, '\n' ∉ p) : splitLF (joinLF ls) = ls := by
  induction ls with
  | nil => exact absurd rfl h1
  | cons l rest ih =>
    cases rest with
    | nil =>
      have := splitLF_single l (h2 l (List.mem_cons_self l []))
      simpa [joinLF] using this
    | cons r rest2 =>
      rw [joinLF_cons_cons]
      rw [splitLF_append l _ (h2 l (List.mem_cons_self l _))]
      rw [ih (by simp) (fun p hp => h2 p (List.mem_cons_of_mem l hp))]

theorem mem_joinLF (ls : List (List Char)) (c : Char) (hc : c ∈ joinLF ls) :
    c = '\n' ∨ ∃ p ∈ ls, c ∈ p := by
  induction ls with
  | nil => simp [joinLF] at hc
  | cons l rest ih =>
    cases rest with
    | nil =>
      right
      exact ⟨l, List.mem_cons_self l [], by simpa [joinLF] using hc⟩
    | cons r rest2 =>
      rw [joinLF_cons_cons] at hc
      rcases List.mem_append.mp hc with h1 | h1
      · exact Or.inr ⟨l, List.mem_cons_self l _, h1⟩
      · rcases List.mem_cons.mp h1 with rfl | h2
        · exact Or.inl rfl
        · rcases ih h2 with h3 | ⟨p, hp, hcp⟩
          · exact Or.inl h3
          · exact Or.inr ⟨p, List.mem_cons_of_mem l hp, hcp⟩

theorem dropWhile_dropWhile {α : Type} (p : α → Bool) (l : List α) :
    (l.dropWhile p).dropWhile p = l.dropWhile p := by
  induction l with
  | nil => simp
  | cons a l ih => cases hp : p a <;> simp [List.dropWhile_cons, hp, ih]

theorem rstrip_idem (l : List Char) : rstripChars (rstripChars l) = rstripChars l := by
  unfold rstripChars
  rw [List.reverse_reverse, dropWhile_dropWhile]

theorem rstrip_subset (l : List Char) : ∀ c ∈ rstripChars l, c ∈ l := by
  intro c hc
  unfold rstripChars at hc
  have := (List.dropWhile_sublist (l := l.reverse) isPySpace).subset
    (List.mem_reverse.mp hc)
  exact List.mem_reverse.mp this

theorem dte_idem (ls : List (List Char)) :
    dropTrailingEmpty (dropTrailingEmpty ls) = dropTrailingEmpty ls := by
  unfold dropTrailingEmpty
  rw [List.reverse_reverse, dropWhile_dropWhile]

theorem dte_subset (ls : List (List Char)) : ∀ p ∈ dropTrailingEmpty ls, p ∈ ls := by
  intro p hp
  unfold dropTrailingEmpty at hp
  have := (List.dropWhile_sublist (l := ls.reverse) List.isEmpty).subset
    (List.mem_reverse.mp hp)
  exact List.mem_reverse.mp this

theorem dropWhile_head_false {α : Type} (p : α → Bool) (l : List α) (x : α)
    (xs : List α) (h : l.dropWhile p = x :: xs) : p x = false := by
  induction l with
  | nil => simp at h
  | cons a l ih =>
    by_cases hp : p a
    · rw [List.dropWhile_cons, if_pos hp] at h
      exact ih h
    · rw [List.dropWhile_cons, if_neg hp] at h
      cases h
      simpa using hp

theorem dte_last_spec (ls : List (List Char)) :
    dropTrailingEmpty ls = []
    ∨ ∃ front last, dropTrailingEmpty ls = front ++ [last] ∧ last ≠ [] := by
  unfold dropTrailingEmpty
  cases hd : ls.reverse.dropWhile List.isEmpty with
  | nil => simp
  | cons y ys =>
    right
    refine ⟨ys.reverse, y, by simp [hd], ?_⟩
    have := dropWhile_head_false List.isEmpty ls.reverse y ys hd
    simpa [List.isEmpty_iff] using this

theorem joinLF_append_singleton_ne_nil (front : List (List Char)) (last : List Char)
    (h : last ≠ []) : joinLF (front ++ [last]) ≠ [] := by
  cases front with
  | nil => simpa [joinLF] using h
  | cons f fr =>
    have hne : fr ++ [last] ≠ [] := by simp
    rcases List.exists_cons_of_ne_nil hne with ⟨r, rest2, hr⟩
    rw [List.cons_append, hr, joinLF_cons_cons]
    simp

-- fixed-point lemma

theorem normalize_fixed (ls : List (List Char)) (h1 : ls ≠ [])
    (hn : ∀ p ∈ ls, '\n' ∉ p) (hs : ∀ p ∈ ls, rstripChars p = p)
    (hr : ∀ p ∈ ls, '\r' ∉ p) (hd : dropTrailingEmpty ls = ls) :
    normalizeTextForDedupe (joinLF ls) = joinLF ls := by
  have hlast : ∃ front last, ls = front ++ [last] ∧ last ≠ [] := by
    rcases dte_last_spec ls with h | ⟨front, last, he, hne⟩
    · rw [hd] at h; exact absurd h h1
    · exact ⟨front, last, by rw [← hd, he], hne⟩
  rcases hlast with ⟨front, last, hfl, hne⟩
  have hyne : joinLF ls ≠ [] := by
    rw [hfl]; exact joinLF_append_singleton_ne_nil front last hne
  have hycr : '\r' ∉ joinLF ls := by
    intro hmem
    rcases mem_joinLF ls '\r' hmem with h | ⟨p, hp, hcp⟩
    · simp at h
    · exact hr p hp hcp
  unfold normalizeTextForDedupe
  rw [if_neg (by simpa [List.isEmpty_iff] using hyne)]
  show joinLF (dropTrailingEmpty
      ((splitLF (replaceCR (replaceCRLF (joinLF ls)))).map rstripChars)) = joinLF ls
  rw [replaceCRLF_eq_self _ hycr, replaceCR_eq_self _ hycr]
  rw [splitLF_joinLF ls h1 hn]
  rw [List.map_congr_left hs]
  simp only [List.map_id_fun', List.map_id', id]
  rw [hd]

theorem normalizeText_idem (l : List Char) :
    normalizeTextForDedupe (normalizeTextForDedupe l) = normalizeTextForDedupe l := by
  by_cases hl : l.isEmpty
  · simp [normalizeTextForDedupe, hl]
  · have hunfold : normalizeTextForDedupe l
        = joinLF (dropTrailingEmpty
            ((splitLF (replaceCR (replaceCRLF l))).map rstripChars)) := by
      rw [normalizeTextForDedupe, if_neg hl]
    set lines2 := dropTrailingEmpty
      ((splitLF (replaceCR (replaceCRLF l))).map rstripChars) with hdef
    rcases eq_or_ne lines2 [] with hnil | hne
    · rw [hunfold, hnil]
      simp [joinLF, normalizeTextForDedupe]
    · rw [hunfold]
      apply normalize_fixed lines2 hne
      · intro p hp
        rcases List.mem_map.mp (dte_subset _ p hp) with ⟨q, hq, rfl⟩
        intro hmm
        exact mem_splitLF_no_newline _ q hq (rstrip_subset q '\n' hmm)
      · intro p hp
        rcases List.mem_map.mp (dte_subset _ p hp) with ⟨q, _, rfl⟩
        exact rstrip_idem q
      · intro p hp
        rcases List.mem_map.mp (dte_subset _ p hp) with ⟨q, hq, rfl⟩
        intro hmm
        exact not_cr_replaceCR _ (mem_splitLF_subset _ q hq '\r' (rstrip_subset q '\r' hmm))
      · exact dte_idem _

/-- C8: the dedup normalization is idempotent, and consequently hashing an
already-normalized string gives the same digest as hashing the original. -/
theorem dedupe_normalize_idempotent (l : List Char) :
    normalizeTextForDedupe (normalizeTextForDedupe l) = normalizeTextForDedupe l
    ∧ ∀ sha256utf8 : List Char → String,
        hashTextForDedupe sha256utf8 (normalizeTextForDedupe l)
          = hashTextForDedupe sha256utf8 l := by
  refine ⟨normalizeText_idem l, fun sha => ?_⟩
  unfold hashTextForDedupe
  rw [normalizeText_idem l]

/-! ## TelegramStreamSender (src/adapters/telegram_adapter.py lines 40-89)
The transport (python-telegram-bot) is abstracted as a trace of outbound
calls; an edit that raises BadRequest is modelled by a per-call flag, after
which the sender falls back to a new message exactly as the source does. -/

/-- One call handed to the Telegram transport. -/
inductive TgCall where
  | sendMessage (text : List Char)
  | editMessage (text : List Char)
deriving DecidableEq, Repr

/-- The text payload of a transport call. -/
def tgText : TgCall → List Char
  | .sendMessage t => t
  | .editMessage t => t

/-- Sender state: the current message id (only its presence matters to the
control flow) and the accumulated text of the current message. -/
structure SenderState where
  messageId : Option Nat
  fullText : List Char
deriving DecidableEq, Repr

/-- TELEGRAM_MESSAGE_LIMIT from the adapter module. -/
def telegramMessageLimit : Nat := 4096

/-- The constructor clamp max(1, min(chunk_limit, TELEGRAM_MESSAGE_LIMIT)). -/
def clampChunkLimit (chunkLimit : Int) : Int :=
  max 1 (min chunkLimit (telegramMessageLimit : Int))

/-- Embeds TelegramStreamSender._send_new_message: split, send each chunk,
adopt the last chunk as the current message text. -/
def sendNewMessage (limit : Nat) (text : List Char) : SenderState × List TgCall :=
  let chunks := splitChunks limit text
  (⟨some 0, chunks.getLastD []⟩, chunks.map TgCall.sendMessage)

/-- Embeds TelegramStreamSender.send for one call; editFails models a
BadRequest raised by edit_message_text. -/
def senderSend (limit : Nat) (st : SenderState) (text : List Char) (editFails : Bool) :
    SenderState × List TgCall :=
  if text.isEmpty then (st, [])
  else
    let nextText := if st.fullText.isEmpty then text else st.fullText ++ '\n' :: text
    if limit < nextText.length then sendNewMessage limit text
    else
      let st2 : SenderState := ⟨st.messageId, nextText⟩
      match st2.messageId with
      | none => sendNewMessage limit st2.fullText
      | some _ =>
        if editFails then
          let fallback := sendNewMessage limit st2.fullText
          (fallback.1, TgCall.editMessage st2.fullText :: fallback.2)
        else (st2, [TgCall.editMessage st2.fullText])

/-- Runs a sequence of send calls from a state, collecting the transport
trace in order. -/
def senderRun (limit : Nat) (st : SenderState) : List (List Char × Bool) → List TgCall
  | [] => []
  | (text, ef) :: rest =>
    let res := senderSend limit st text ef
    res.2 ++ senderRun limit res.1 rest

/-- A fresh sender built with the configured chunk limit, as the adapter
constructs one per run or per poll tick. -/
def senderRunFromStart (chunkLimit : Int) (inputs : List (List Char × Bool)) : List TgCall :=
  senderRun (clampChunkLimit chunkLimit).toNat ⟨none, []⟩ inputs

theorem splitChunks_le (limit : Nat) (content : List Char) :
    ∀ chunk ∈ splitChunks limit content, chunk.length ≤ limit := by
  intro chunk hc
  rw [splitChunks] at hc
  split at hc
  · rename_i hle
    rcases List.mem_singleton.mp hc with rfl
    exact hle
  · exact splitLoop_chunk_le limit content chunk hc

theorem getLastD_nil_mem_or {α : Type} (l : List α) (d : α) :
    l.getLastD d = d ∨ l.getLastD d ∈ l := by
  induction l with
  | nil => simp
  | cons a l ih =>
    cases l with
    | nil => simp
    | cons b t =>
      rcases ih with h | h
      · rw [List.getLastD_cons]
        exact Or.inl h
      · rw [List.getLastD_cons]
        exact Or.inr (List.mem_cons_of_mem a h)

theorem sendNewMessage_bound (limit : Nat) (text : List Char) :
    (∀ call ∈ (sendNewMessage limit text).2, (tgText call).length ≤ limit)
    ∧ (sendNewMessage limit text).1.fullText.length ≤ limit := by
  constructor
  · intro call hcall
    rcases List.mem_map.mp hcall with ⟨chunk, hchunk, rfl⟩
    exact splitChunks_le limit text chunk hchunk
  · show ((splitChunks limit text).getLastD []).length ≤ limit
    rcases getLastD_nil_mem_or (splitChunks limit text) [] with h | h
    · rw [h]
      simp
    · exact splitChunks_le limit text _ h

theorem senderSend_bound (limit : Nat) (st : SenderState)
    (hst : st.fullText.length ≤ limit) (text : List Char) (ef : Bool) :
    (∀ call ∈ (senderSend limit st text ef).2, (tgText call).length ≤ limit)
    ∧ (senderSend limit st text ef).1.fullText.length ≤ limit := by
  simp only [senderSend]
  set nT := if st.fullText.isEmpty then text else st.fullText ++ '\n' :: text with hnT
  split
  · exact ⟨by simp, hst⟩
  · split
    · exact sendNewMessage_bound limit text
    · rename_i hte hfit
      have hlen : nT.length ≤ limit := by omega
      split
      · simpa using sendNewMessage_bound limit nT
      · split
        · refine ⟨?_, by simpa using (sendNewMessage_bound limit nT).2⟩
          intro call hcall
          simp only [List.mem_cons] at hcall
          rcases hcall with rfl | h
          · simpa using hlen
          · exact (sendNewMessage_bound limit nT).1 call h
        · refine ⟨?_, by simpa using hlen⟩
          intro call hcall
          simp only [List.mem_singleton] at hcall
          subst hcall
          simpa using hlen

theorem senderRun_bound (limit : Nat) :
    ∀ (inputs : List (List Char × Bool)) (st : SenderState),
      st.fullText.length ≤ limit →
      ∀ call ∈ senderRun limit st inputs, (tgText call).length ≤ limit := by
  intro inputs
  induction inputs with
  | nil => intro st _ call hcall; simp [senderRun] at hcall
  | cons p rest ih =>
    intro st hst call hcall
    rcases p with ⟨text, ef⟩
    rw [senderRun] at hcall
    rcases List.mem_append.mp hcall with h | h
    · exact (senderSend_bound limit st hst text ef).1 call h
    · exact ih _ (senderSend_bound limit st hst text ef).2 call h

theorem clampChunkLimit_eq (chunkLimit : Int) :
    clampChunkLimit chunkLimit = min (max 1 chunkLimit) 4096 := by
  rw [clampChunkLimit, telegramMessageLimit]
  rcases le_total chunkLimit 1 with h1 | h1 <;>
    rcases le_total chunkLimit 4096 with h2 | h2 <;>
      simp [max_def, min_def] <;> omega

/-- C9: the Telegram stream sender clamps its effective chunk limit into the
interval from 1 to the Telegram message limit 4096, so for every sequence of
send calls every text handed to the transport, as a new message or as an
edit, is at most min(max(1, chunk_limit), 4096) characters long, even for a
configured limit that is non-positive or above 4096. -/
theorem telegram_sender_clamped (chunkLimit : Int) (inputs : List (List Char × Bool)) :
    ∀ call ∈ senderRunFromStart chunkLimit inputs,
      ((tgText call).length : Int) ≤ min (max 1 chunkLimit) 4096 := by
  intro call hcall
  have hc1 : (1 : Int) ≤ clampChunkLimit chunkLimit := le_max_left 1 _
  have hbound := senderRun_bound (clampChunkLimit chunkLimit).toNat inputs
    ⟨none, []⟩ (by simp) call hcall
  rw [← clampChunkLimit_eq]
  calc ((tgText call).length : Int)
      ≤ ((clampChunkLimit chunkLimit).toNat : Int) := by exact_mod_cast hbound
    _ = clampChunkLimit chunkLimit := Int.toNat_of_nonneg (by omega)

/-- Concrete instantiation of telegram_sender_clamped: with chunk limit 2,
sending the three-character text abc rolls over into the chunks ab and c,
and the first chunk handed to the transport respects the clamped bound. -/
theorem telegram_sender_clamped_witness :
    TgCall.sendMessage ['a', 'b'] ∈ senderRunFromStart 2 [(['a', 'b', 'c'], false)]
    ∧ ((tgText (TgCall.sendMessage ['a', 'b'])).length : Int) ≤ min (max 1 2) 4096 := by
  have hmem : TgCall.sendMessage ['a', 'b'] ∈ senderRunFromStart 2 [(['a', 'b', 'c'], false)] := by
    simp [senderRunFromStart, senderRun, senderSend, sendNewMessage, splitChunks,
      splitLoop, clampChunkLimit, telegramMessageLimit]
  exact ⟨hmem, telegram_sender_clamped 2 [(['a', 'b', 'c'], false)]
    (TgCall.sendMessage ['a', 'b']) hmem⟩

/-! ## TelegramAdapter send-dedup window (src/adapters/telegram_adapter.py lines 121-149)
The per-user dict dedupe_hashes mapping content digest to insertion time is
modelled as an association list in insertion order (Python dicts preserve
insertion order); timestamps are integers.  Python sorted is a stable sort
by timestamp, modelled by a stable insertion sort. -/

abbrev DedupWindow := List (String × Int)

/-- The module constant dedup TTL of 3600 seconds. -/
def dedupTTLSeconds : Int := 3600
/-- The module constant dedup capacity of 256 entries. -/
def dedupMaxEntries : Nat := 256

/-- Stable insertion of an entry into a timestamp-sorted list. -/
def insertByTs (e : String × Int) : List (String × Int) → List (String × Int)
  | [] => [e]
  | f :: rest => if e.2 ≤ f.2 then e :: f :: rest else f :: insertByTs e rest

/-- Stable sort by timestamp, the semantics of Python sorted with a
timestamp key. -/
def sortByTs : List (String × Int) → List (String × Int)
  | [] => []
  | e :: rest => insertByTs e (sortByTs rest)

/-- The entries surviving TTL expiry: the source drops entries with
now - ts strictly greater than the TTL. -/
def keptEntries (now : Int) (w : DedupWindow) : DedupWindow :=
  w.filter fun e => now - e.2 ≤ dedupTTLSeconds

/-- The keys selected for capacity eviction: the oldest
len - 256 entries of the timestamp-sorted surviving entries. -/
def capacityDropKeys (now : Int) (w : DedupWindow) : List String :=
  ((sortByTs (keptEntries now w)).take ((keptEntries now w).length - dedupMaxEntries)).map
    fun e => e.1

/-- Embeds TelegramAdapter._prune_dedupe: drop expired entries first, then
if still over capacity drop the oldest entries by insertion time. -/
def pruneDedupe (now : Int) (w : DedupWindow) : DedupWindow :=
  if w.isEmpty then w
  else
    let kept := keptEntries now w
    if kept.length ≤ dedupMaxEntries then kept
    else
      let toDrop := capacityDropKeys now w
      kept.filter fun e => ¬ toDrop.contains e.1

/-- Embeds TelegramAdapter._should_send restricted to the window update: a
missing digest skips the window entirely, otherwise prune, refuse a known
digest, and record a fresh digest at the current time. -/
def dedupShouldSend (now : Int) (digest : Option String) (w : DedupWindow) :
    Bool × DedupWindow :=
  match digest with
  | none => (true, w)
  | some d =>
    let w2 := pruneDedupe now w
    if w2.any fun e => e.1 = d then (false, w2)
    else (true, w2 ++ [(d, now)])

/-- A sequence of should-send checks, as issued by the poll tick. -/
def dedupInsertMany (now : Int) (digests : List String) (w : DedupWindow) : DedupWindow :=
  digests.foldl (fun acc d => (dedupShouldSend now (some d) acc).2) w

/-- Key uniqueness, the invariant of a window modelling a Python dict. -/
def nodupKeys (w : DedupWindow) : Prop := (w.map fun e => e.1).Nodup

theorem insertByTs_perm (e : String × Int) (l : List (String × Int)) :
    List.Perm (insertByTs e l) (e :: l) := by
  induction l with
  | nil => simp [insertByTs]
  | cons f rest ih =>
    rw [insertByTs]
    split
    · exact List.Perm.refl _
    · exact List.Perm.trans (List.Perm.cons f ih) (List.Perm.swap e f rest)

theorem sortByTs_perm (l : List (String × Int)) : List.Perm (sortByTs l) l := by
  induction l with
  | nil => simp [sortByTs]
  | cons e rest ih =>
    exact List.Perm.trans (insertByTs_perm e (sortByTs rest)) (List.Perm.cons e ih)

theorem insertByTs_pairwise (e : String × Int) (l : List (String × Int))
    (h : l.Pairwise fun a b => a.2 ≤ b.2) :
    (insertByTs e l).Pairwise fun a b => a.2 ≤ b.2 := by
  induction l with
  | nil => simp [insertByTs]
  | cons f rest ih =>
    rw [insertByTs]
    rcases List.pairwise_cons.mp h with ⟨hf, hrest⟩
    split
    · rename_i hef
      refine List.pairwise_cons.mpr ⟨?_, h⟩
      intro b hb
      rcases List.mem_cons.mp hb with rfl | hb2
      · exact hef
      · exact le_trans hef (hf b hb2)
    · rename_i hef
      have hfe : f.2 ≤ e.2 := le_of_not_le hef
      refine List.pairwise_cons.mpr ⟨?_, ih hrest⟩
      intro b hb
      have hbm : b = e ∨ b ∈ rest :=
        List.mem_cons.mp ((insertByTs_perm e rest).mem_iff.mp hb)
      rcases hbm with rfl | hb2
      · exact hfe
      · exact hf b hb2

theorem sortByTs_pairwise (l : List (String × Int)) :
    (sortByTs l).Pairwise fun a b => a.2 ≤ b.2 := by
  induction l with
  | nil => simp [sortByTs]
  | cons e rest ih => exact insertByTs_pairwise e (sortByTs rest) ih

theorem key_inj (l : List (String × Int)) (h : (l.map fun e => e.1).Nodup)
    (a b : String × Int) (ha : a ∈ l) (hb : b ∈ l) (hk : a.1 = b.1) : a = b := by
  induction l with
  | nil => simp at ha
  | cons x rest ih =>
    rw [List.map_cons, List.nodup_cons] at h
    rcases List.mem_cons.mp ha with rfl | ha2 <;> rcases List.mem_cons.mp hb with rfl | hb2
    · rfl
    · exact absurd (List.mem_map.mpr ⟨b, hb2, hk.symm⟩) h.1
    · exact absurd (List.mem_map.mpr ⟨a, ha2, hk⟩) h.1
    · exact ih h.2 ha2 hb2

theorem pruneDedupe_empty (now : Int) (w : DedupWindow) (hemp : w.isEmpty = true) :
    pruneDedupe now w = w := by
  simp only [pruneDedupe]
  rw [if_pos hemp]

theorem pruneDedupe_small (now : Int) (w : DedupWindow) (hemp : ¬ w.isEmpty = true)
    (hlen : (keptEntries now w).length ≤ dedupMaxEntries) :
    pruneDedupe now w = keptEntries now w := by
  simp only [pruneDedupe]
  rw [if_neg hemp, if_pos hlen]

theorem pruneDedupe_over (now : Int) (w : DedupWindow) (hemp : ¬ w.isEmpty = true)
    (hlen : ¬ (keptEntries now w).length ≤ dedupMaxEntries) :
    pruneDedupe now w
      = (keptEntries now w).filter fun e => ¬ (capacityDropKeys now w).contains e.1 := by
  simp only [pruneDedupe]
  rw [if_neg hemp, if_neg hlen]

set_option maxRecDepth 4000 in
theorem pruneDedupe_length (now : Int) (w : DedupWindow) :
    (pruneDedupe now w).length ≤ dedupMaxEntries := by
  by_cases hemp : w.isEmpty = true
  · rw [pruneDedupe_empty now w hemp, List.isEmpty_iff.mp hemp]
    simp [dedupMaxEntries]
  · by_cases hlen : (keptEntries now w).length ≤ dedupMaxEntries
    · rw [pruneDedupe_small now w hemp hlen]
      exact hlen
    · rw [pruneDedupe_over now w hemp hlen]
      set kept := keptEntries now w with hkept
      set toDrop := capacityDropKeys now w with htd
      have hsplit := List.length_eq_countP_add_countP (fun e => toDrop.contains e.1) kept
      have hlenf : (kept.filter fun e => ¬ toDrop.contains e.1).length
          = List.countP (fun e => decide ¬ toDrop.contains e.1 = true) kept :=
        (List.countP_eq_length_filter _ kept).symm
      have hperm : List.countP (fun e => toDrop.contains e.1) (sortByTs kept)
          = List.countP (fun e => toDrop.contains e.1) kept :=
        (sortByTs_perm kept).countP_eq _
      have htake : List.countP (fun e => toDrop.contains e.1)
            ((sortByTs kept).take (kept.length - dedupMaxEntries))
          = ((sortByTs kept).take (kept.length - dedupMaxEntries)).length := by
        rw [List.countP_eq_length]
        intro e he
        have hmem : e.1 ∈ toDrop := by
          rw [htd, capacityDropKeys, ← hkept]
          exact List.mem_map.mpr ⟨e, he, rfl⟩
        simpa [List.elem_iff] using hmem
      have hlentake : ((sortByTs kept).take (kept.length - dedupMaxEntries)).length
          = kept.length - dedupMaxEntries := by
        rw [List.length_take]
        have hsl : (sortByTs kept).length = kept.length := (sortByTs_perm kept).length_eq
        omega
      have hdropcount : List.countP (fun e => toDrop.contains e.1) kept
          ≥ kept.length - dedupMaxEntries := by
        rw [← hperm]
        calc List.countP (fun e => toDrop.contains e.1) (sortByTs kept)
            = List.countP (fun e => toDrop.contains e.1)
                ((sortByTs kept).take (kept.length - dedupMaxEntries))
              + List.countP (fun e => toDrop.contains e.1)
                ((sortByTs kept).drop (kept.length - dedupMaxEntries)) := by
              rw [← List.countP_append, List.take_append_drop]
          _ ≥ List.countP (fun e => toDrop.contains e.1)
                ((sortByTs kept).take (kept.length - dedupMaxEntries)) :=
              Nat.le_add_right _ _
          _ = kept.length - dedupMaxEntries := by rw [htake, hlentake]
      rw [hlenf]
      omega

theorem pruneDedupe_subset (now : Int) (w : DedupWindow) :
    ∀ e ∈ pruneDedupe now w, e ∈ w ∧ now - e.2 ≤ dedupTTLSeconds := by
  intro e he
  by_cases hemp : w.isEmpty = true
  · rw [pruneDedupe_empty now w hemp, List.isEmpty_iff.mp hemp] at he
    simp at he
  · by_cases hlen : (keptEntries now w).length ≤ dedupMaxEntries
    · rw [pruneDedupe_small now w hemp hlen] at he
      have hm := List.mem_filter.mp he
      exact ⟨hm.1, by simpa using hm.2⟩
    · rw [pruneDedupe_over now w hemp hlen] at he
      have h1 := List.mem_filter.mp he
      have h2 := List.mem_filter.mp h1.1
      exact ⟨h2.1, by simpa using h2.2⟩

theorem nodupKeys_filter (p : String × Int → Bool) (w : DedupWindow)
    (h : nodupKeys w) : nodupKeys (w.filter p) := by
  unfold nodupKeys at h ⊢
  exact h.sublist (List.Sublist.map _ (List.filter_sublist w))

theorem pruneDedupe_nodup (now : Int) (w : DedupWindow) (h : nodupKeys w) :
    nodupKeys (pruneDedupe now w) := by
  by_cases hemp : w.isEmpty = true
  · rwa [pruneDedupe_empty now w hemp]
  · by_cases hlen : (keptEntries now w).length ≤ dedupMaxEntries
    · rw [pruneDedupe_small now w hemp hlen]
      exact nodupKeys_filter _ w h
    · rw [pruneDedupe_over now w hemp hlen]
      exact nodupKeys_filter _ _ (nodupKeys_filter _ w h)

theorem pruneDedupe_oldest (now : Int) (w : DedupWindow) (hw : nodupKeys w) :
    ∀ e1 ∈ pruneDedupe now w, ∀ e2 ∈ w, now - e2.2 ≤ dedupTTLSeconds →
      e2 ∉ pruneDedupe now w → e2.2 ≤ e1.2 := by
  intro e1 he1 e2 he2 hkeep hnot
  by_cases hemp : w.isEmpty = true
  · rw [List.isEmpty_iff.mp hemp] at he2
    simp at he2
  · have he2k : e2 ∈ keptEntries now w :=
      List.mem_filter.mpr ⟨he2, by simpa using hkeep⟩
    by_cases hlen : (keptEntries now w).length ≤ dedupMaxEntries
    · rw [pruneDedupe_small now w hemp hlen] at hnot
      exact absurd he2k hnot
    · rw [pruneDedupe_over now w hemp hlen] at he1 hnot
      set kept := keptEntries now w with hkept
      set toDrop := capacityDropKeys now w with htd
      set n := kept.length - dedupMaxEntries with hn
      have hkn : nodupKeys kept := nodupKeys_filter _ w hw
      have he2d : (toDrop.contains e2.1) = true := by
        by_contra hx
        exact hnot (List.mem_filter.mpr ⟨he2k, by simpa using hx⟩)
      have he1k : e1 ∈ kept := (List.mem_filter.mp he1).1
      have he1nd : ¬ (toDrop.contains e1.1) = true := by
        have hf := (List.mem_filter.mp he1).2
        simpa using hf
      have hsortTake : toDrop = ((sortByTs kept).take n).map fun e => e.1 := by
        rw [htd, capacityDropKeys, ← hkept, ← hn]
      have he2t : e2 ∈ (sortByTs kept).take n := by
        have hmem : e2.1 ∈ toDrop := by simpa [List.elem_iff] using he2d
        rw [hsortTake] at hmem
        rcases List.mem_map.mp hmem with ⟨t, ht, hteq⟩
        have htk : t ∈ kept := (sortByTs_perm kept).subset (List.mem_of_mem_take ht)
        have hte : t = e2 := key_inj kept hkn t e2 htk he2k hteq
        exact hte ▸ ht
      have he1s : e1 ∈ sortByTs kept := (sortByTs_perm kept).mem_iff.mpr he1k
      have he1dr : e1 ∈ (sortByTs kept).drop n := by
        have hx := (List.take_append_drop n (sortByTs kept)) ▸ he1s
        rcases List.mem_append.mp hx with h | h
        · exfalso
          apply he1nd
          have hmem : e1.1 ∈ toDrop := by
            rw [hsortTake]
            exact List.mem_map.mpr ⟨e1, h, rfl⟩
          simpa [List.elem_iff] using hmem
        · exact h
      have hpw := sortByTs_pairwise kept
      have hx := (List.take_append_drop n (sortByTs kept)) ▸ hpw
      rcases List.pairwise_append.mp hx with ⟨_, _, hcross⟩
      exact hcross e2 he2t e1 he1dr

theorem pruneDedupe_id (now : Int) (w : DedupWindow)
    (hts : ∀ e ∈ w, now - e.2 ≤ dedupTTLSeconds) (hlen : w.length ≤ dedupMaxEntries) :
    pruneDedupe now w = w := by
  by_cases hemp : w.isEmpty = true
  · exact pruneDedupe_empty now w hemp
  · have hk : keptEntries now w = w :=
      List.filter_eq_self.mpr (fun e he => by simpa using hts e he)
    rw [pruneDedupe_small now w hemp (by rw [hk]; exact hlen), hk]

theorem dedupInsertMany_fresh_length (now : Int) :
    ∀ (digests : List String) (w : DedupWindow),
      (∀ e ∈ w, e.2 = now) → digests.Nodup →
      (∀ d ∈ digests, ∀ e ∈ w, e.1 ≠ d) →
      w.length + digests.length ≤ dedupMaxEntries + 1 →
      (dedupInsertMany now digests w).length = w.length + digests.length := by
  intro digests
  induction digests with
  | nil => intro w _ _ _ _; simp [dedupInsertMany]
  | cons d rest ih =>
    intro w hts hnodup hfresh hlen
    have hlw : w.length ≤ dedupMaxEntries := by
      simp only [List.length_cons, List.length_nil] at hlen
      omega
    have hprune : pruneDedupe now w = w :=
      pruneDedupe_id now w
        (fun e he => by rw [hts e he]; simp [dedupTTLSeconds])
        hlw
    have hany : (w.any fun e => e.1 = d) = false := by
      rw [List.any_eq_false]
      intro e he
      simpa using hfresh d (List.mem_cons_self d rest) e he
    have hstep : (dedupShouldSend now (some d) w).2 = w ++ [(d, now)] := by
      simp only [dedupShouldSend, hprune, hany]
      simp
    have hnodup2 := (List.nodup_cons.mp hnodup).2
    have hdnotin := (List.nodup_cons.mp hnodup).1
    have hres := ih (w ++ [(d, now)])
      (by
        intro e he
        rcases List.mem_append.mp he with h | h
        · exact hts e h
        · rcases List.mem_singleton.mp h with rfl
          rfl)
      hnodup2
      (by
        intro d2 hd2 e he
        rcases List.mem_append.mp he with h | h
        · exact hfresh d2 (List.mem_cons_of_mem d hd2) e h
        · rcases List.mem_singleton.mp h with rfl
          intro hx
          simp only at hx
          exact hdnotin (hx ▸ hd2))
      (by
        simp only [List.length_append, List.length_singleton, List.length_cons,
          List.length_nil] at hlen ⊢
        omega)
    calc (dedupInsertMany now (d :: rest) w).length
        = (dedupInsertMany now rest (w ++ [(d, now)])).length := by
          simp only [dedupInsertMany, List.foldl_cons, hstep]
      _ = (w ++ [(d, now)]).length + rest.length := hres
      _ = w.length + (d :: rest).length := by
          simp only [List.length_append, List.length_singleton, List.length_cons,
            List.length_nil]
          omega

theorem replicate_key_injective :
    Function.Injective fun n : Nat => String.mk (List.replicate n 'a') := by
  intro a b hab
  have hdata : List.replicate a 'a' = List.replicate b 'a' := by
    injection hab
  have := congrArg List.length hdata
  simpa using this

theorem dedup_window_overflow :
    (dedupInsertMany 0
      ((List.range 257).map fun n => String.mk (List.replicate n 'a')) []).length = 257 := by
  have hlen0 : ((List.range 257).map fun n => String.mk (List.replicate n 'a')).length
      = 257 := by
    rw [List.length_map, List.length_range]
  have h := dedupInsertMany_fresh_length 0
    ((List.range 257).map fun n => String.mk (List.replicate n 'a')) []
    (by intro e he; exact absurd he (List.not_mem_nil e))
    ((List.nodup_range 257).map replicate_key_injective)
    (by intro d _ e he; exact absurd he (List.not_mem_nil e))
    (by rw [List.length_nil, hlen0]; unfold dedupMaxEntries; omega)
  rw [h, List.length_nil, hlen0]

theorem dedup_window_amended_core (now : Int) (d : String) (w : DedupWindow)
    (hw : nodupKeys w) :
    (pruneDedupe now w).length ≤ dedupMaxEntries
    ∧ ((dedupShouldSend now (some d) w).2).length ≤ dedupMaxEntries + 1
    ∧ (∀ e ∈ pruneDedupe now w, now - e.2 ≤ dedupTTLSeconds)
    ∧ (∀ e1 ∈ pruneDedupe now w, ∀ e2 ∈ w, now - e2.2 ≤ dedupTTLSeconds →
        e2 ∉ pruneDedupe now w → e2.2 ≤ e1.2)
    ∧ nodupKeys (dedupShouldSend now (some d) w).2 := by
  refine ⟨pruneDedupe_length now w, ?_, fun e he => (pruneDedupe_subset now w e he).2,
    pruneDedupe_oldest now w hw, ?_⟩
  · simp only [dedupShouldSend]
    split
    · exact le_trans (pruneDedupe_length now w) (Nat.le_succ _)
    · rw [List.length_append]
      have hp := pruneDedupe_length now w
      simp only [List.length_singleton]
      omega
  · simp only [dedupShouldSend]
    split
    · exact pruneDedupe_nodup now w hw
    · rename_i hany
      unfold nodupKeys
      rw [List.map_append]
      rw [List.nodup_append]
      refine ⟨pruneDedupe_nodup now w hw, by simp, ?_⟩
      intro k hk1 hk2
      simp only [List.map_cons, List.map_nil, List.mem_singleton] at hk2
      subst hk2
      rcases List.mem_map.mp hk1 with ⟨e, he, hke⟩
      apply hany
      exact List.any_eq_true.mpr ⟨e, he, by simpa using hke⟩

/-- C6 fails as stated: _should_send prunes before it inserts, so right after
an insertion the window can hold 257 entries.  Starting from an empty window,
257 insertions of distinct digests at one instant leave 257 entries, more
than the claimed 256 bound. -/
theorem dedup_window_bound_counterexample :
    (dedupInsertMany 0
      ((List.range 257).map fun n => String.mk (List.replicate n 'a')) []).length = 257
    ∧ ¬ (dedupInsertMany 0
      ((List.range 257).map fun n => String.mk (List.replicate n 'a')) []).length ≤ 256 := by
  refine ⟨dedup_window_overflow, ?_⟩
  rw [dedup_window_overflow]
  omega

/-- C6 amended: the prune performed before each insertion leaves at most 256
entries, so the window observable right after an insertion holds at most 257
entries; entries strictly older than the 3600-second TTL never survive the
prune, and any non-expired entry evicted for capacity is at least as old as
every surviving entry; key uniqueness is preserved. -/
theorem dedup_window_amended (now : Int) (d : String) (w : DedupWindow)
    (hw : nodupKeys w) :
    (pruneDedupe now w).length ≤ dedupMaxEntries
    ∧ ((dedupShouldSend now (some d) w).2).length ≤ dedupMaxEntries + 1
    ∧ (∀ e ∈ pruneDedupe now w, now - e.2 ≤ dedupTTLSeconds)
    ∧ (∀ e1 ∈ pruneDedupe now w, ∀ e2 ∈ w, now - e2.2 ≤ dedupTTLSeconds →
        e2 ∉ pruneDedupe now w → e2.2 ≤ e1.2)
    ∧ nodupKeys (dedupShouldSend now (some d) w).2 :=
  dedup_window_amended_core now d w hw

/-- Concrete instantiation of dedup_window_amended on a one-entry window. -/
theorem dedup_window_amended_witness :
    nodupKeys [("b", (-5 : Int))]
    ∧ ((pruneDedupe 0 [("b", (-5 : Int))]).length ≤ dedupMaxEntries
      ∧ ((dedupShouldSend 0 (some "a") [("b", (-5 : Int))]).2).length ≤ dedupMaxEntries + 1
      ∧ (∀ e ∈ pruneDedupe 0 [("b", (-5 : Int))], (0 : Int) - e.2 ≤ dedupTTLSeconds)
      ∧ (∀ e1 ∈ pruneDedupe 0 [("b", (-5 : Int))], ∀ e2 ∈ [("b", (-5 : Int))],
          (0 : Int) - e2.2 ≤ dedupTTLSeconds →
          e2 ∉ pruneDedupe 0 [("b", (-5 : Int))] → e2.2 ≤ e1.2)
      ∧ nodupKeys (dedupShouldSend 0 (some "a") [("b", (-5 : Int))]).2) :=
  ⟨by simp [nodupKeys], dedup_window_amended 0 "a" [("b", (-5 : Int))] (by simp [nodupKeys])⟩

/-! ## Orchestrator.poll_external_results (src/orchestrator.py lines 130-229)
The event-log file is modelled as the list of parsed records read past the
held cursor (JSON parsing, blank-line skipping, and the response_item
extraction of _extract_jsonl_message yield an optional timestamp and an
optional assistant text per line); file-system resolution is a boolean.
The SHA-256 digest of the UTF-8 normalized text is abstracted as a function
parameter.  The returned triple is the delivered messages and the cursor
pair (jsonl_last_ts, jsonl_last_hash) as stored after the call; wall-clock
floats are integers. -/

/-- One parsed event-log record after _extract_jsonl_message. -/
structure JsonlRecord where
  timestamp : Option Int
  text : Option String
deriving DecidableEq, Repr

/-- Python last_ts or timestamp: None and the float zero are falsy. -/
def pyOrTs (lastTs : Option Int) (ts : Int) : Int :=
  match lastTs with
  | none => ts
  | some v => if v = 0 then ts else v

/-- The cursor advance max(last_ts or timestamp, timestamp). -/
def bumpTs (lastTs : Option Int) (ts : Int) : Int := max (pyOrTs lastTs ts) ts

/-- The normalization wrapper applied before hashing event-log texts. -/
def normalizeStr (s : String) : String := String.mk (normalizeTextForDedupe s.data)

/-- The hash of the session's last result computed once at the top of
poll_external_results: present only when the last result and its
normalization are non-empty. -/
def lastResultHashOf (hashFn : String → String) (sessionLastResult : Option String) :
    Option String :=
  match sessionLastResult with
  | none => none
  | some r =>
    if r ≠ "" then
      (let n := normalizeStr r
       if n ≠ "" then some (hashFn n) else none)
    else none

/-- The per-record loop of poll_external_results: skip empty or unstamped
records, skip records strictly older than the stored cursor timestamp,
absorb records matching the last-result hash or the stored last-hash into
the cursor, and deliver the rest when allow_send holds. -/
def pollLoop (hashFn : String → String) (lastResultHash : Option String)
    (allowSend : Bool) :
    List JsonlRecord → Option Int → Option String → List String → Bool →
      List String × Option Int × Option String × Bool
  | [], lastTs, lastHash, messages, updated => (messages, lastTs, lastHash, updated)
  | r :: rest, lastTs, lastHash, messages, updated =>
    match r.text, r.timestamp with
    | some text, some ts =>
      if text = "" then
        pollLoop hashFn lastResultHash allowSend rest lastTs lastHash messages updated
      else if (match lastTs with | some t => decide (ts < t) | none => false) then
        pollLoop hashFn lastResultHash allowSend rest lastTs lastHash messages updated
      else
        let digest := hashFn (normalizeStr text)
        if pyStrTruthy lastResultHash ∧ lastResultHash = some digest then
          pollLoop hashFn lastResultHash allowSend rest
            (some (bumpTs lastTs ts)) (some digest) messages true
        else if pyStrTruthy lastHash ∧ lastHash = some digest then
          pollLoop hashFn lastResultHash allowSend rest
            (some (bumpTs lastTs ts)) lastHash messages true
        else
          pollLoop hashFn lastResultHash allowSend rest
            (some (bumpTs lastTs ts)) (some digest)
            (if allowSend then messages ++ [text] else messages) true
    | _, _ => pollLoop hashFn lastResultHash allowSend rest lastTs lastHash messages updated

/-- Embeds Orchestrator.poll_external_results from the point where the
session file has been resolved: a missing file returns nothing and leaves
the cursor alone; an unset cursor pair records the baseline now and stops
before reading any record; otherwise the record loop runs.  The session
last-result mutation performed for delivered messages does not feed back
into the loop because the last-result hash is computed once up front. -/
def pollExternalResults (hashFn : String → String) (now : Int)
    (sessionLastResult : Option String) (lastTs : Option Int) (lastHash : Option String)
    (allowSend : Bool) (fileFound : Bool) (recs : List JsonlRecord) :
    List String × Option Int × Option String :=
  if ¬ fileFound then ([], lastTs, lastHash)
  else
    let lastResultHash := lastResultHashOf hashFn sessionLastResult
    if lastTs = none ∧ lastHash = none then ([], some now, none)
    else
      let res := pollLoop hashFn lastResultHash allowSend recs lastTs lastHash [] false
      (res.1, res.2.1, res.2.2.1)

theorem bumpTs_self (t : Int) : bumpTs (some t) t = t := by
  simp only [bumpTs, pyOrTs]
  split <;> simp

/-- C4: when both stored cursor fields are unset, poll_external_results
delivers no messages, records the baseline timestamp now with no hash, and
is independent of whatever records the event log holds: no historical
record is read or delivered. -/
theorem poll_first_call_baseline (hashFn : String → String) (now : Int)
    (sessionLastResult : Option String) (allowSend : Bool) (recs : List JsonlRecord) :
    pollExternalResults hashFn now sessionLastResult none none allowSend true recs
      = ([], some now, none) := by
  simp [pollExternalResults]

/-- C10: a record whose timestamp equals the stored cursor timestamp exactly
is not skipped by the strictly-less timestamp filter, and is delivered when
its normalized content hash differs from both the session last-result hash
and the stored last-hash; the cursor advances to that timestamp and hash. -/
theorem poll_equal_timestamp_processed (hashFn : String → String) (now t : Int)
    (sessionLastResult : Option String) (lastHash : Option String) (txt : String)
    (hne : txt ≠ "")
    (h1 : lastResultHashOf hashFn sessionLastResult ≠ some (hashFn (normalizeStr txt)))
    (h2 : lastHash ≠ some (hashFn (normalizeStr txt))) :
    pollExternalResults hashFn now sessionLastResult (some t) lastHash true true
      [⟨some t, some txt⟩]
      = ([txt], some t, some (hashFn (normalizeStr txt))) := by
  have hd1 : ¬ (pyStrTruthy (lastResultHashOf hashFn sessionLastResult) = true
      ∧ lastResultHashOf hashFn sessionLastResult = some (hashFn (normalizeStr txt))) := by
    rintro ⟨_, heq⟩
    exact h1 heq
  have hd2 : ¬ (pyStrTruthy lastHash = true
      ∧ lastHash = some (hashFn (normalizeStr txt))) := by
    rintro ⟨_, heq⟩
    exact h2 heq
  simp [pollExternalResults, pollLoop, hne, hd1, hd2, bumpTs_self]

/-- Concrete instantiation of poll_equal_timestamp_processed with the
identity digest at timestamp 5. -/
theorem poll_equal_timestamp_processed_witness :
    ("hi" ≠ ""
      ∧ lastResultHashOf id none ≠ some (id (normalizeStr "hi"))
      ∧ (none : Option String) ≠ some (id (normalizeStr "hi")))
    ∧ pollExternalResults id 9 none (some 5) none true true [⟨some 5, some "hi"⟩]
      = (["hi"], some 5, some (id (normalizeStr "hi"))) :=
  ⟨⟨by decide, by simp [lastResultHashOf], by simp⟩,
    poll_equal_timestamp_processed id 9 5 none none "hi" (by decide)
      (by simp [lastResultHashOf]) (by simp)⟩

/-! ## Store sessions table (src/store.py)
The sessions table created by Store.init has the columns session_id (primary
key), user_id, state, resume_id, last_result, jsonl_last_ts, jsonl_last_hash,
last_chat_id, created_at, last_activity - and no bot column.  The table is a
list of rows; INSERT OR REPLACE removes any row with the same primary key and
appends the new one; ORDER BY last_activity DESC LIMIT 1 is a maximum.
Timestamps are integers. -/

/-- One row of the sessions table, with exactly the columns of store.py. -/
structure SessionRow where
  sessionId : String
  userId : Int
  state : String
  resumeId : Option String
  lastResult : Option String
  jsonlLastTs : Option Int
  jsonlLastHash : Option String
  lastChatId : Option Int
  createdAt : Int
  lastActivity : Int
deriving DecidableEq, Repr

abbrev SessionsTable := List SessionRow

/-- Embeds Store.record_session: INSERT OR REPLACE keyed on session_id, with
created_at stamped at write time. -/
def recordSession (now : Int) (row : SessionRow) (tbl : SessionsTable) : SessionsTable :=
  (tbl.filter fun r => r.sessionId ≠ row.sessionId) ++ [{ row with createdAt := now }]

/-- Embeds Store.update_session_last_result: set last_result and
last_activity on the row with the given session id. -/
def updateSessionLastResult (now : Int) (sessionId : String) (lastResult : Option String)
    (tbl : SessionsTable) : SessionsTable :=
  tbl.map fun r =>
    if r.sessionId = sessionId then { r with lastResult := lastResult, lastActivity := now }
    else r

/-- The row of greatest last_activity, the semantics of ORDER BY
last_activity DESC LIMIT 1 (ties resolved towards the earlier row, which the
SQL leaves unspecified; the scenarios below use distinct activities). -/
def latestByActivity : SessionsTable → Option SessionRow
  | [] => none
  | r :: rest =>
    match latestByActivity rest with
    | none => some r
    | some m => if m.lastActivity > r.lastActivity then some m else some r

/-- Embeds Store.get_last_result_by_user_id: the latest non-null last_result
for a user id.  The function has no bot parameter: the SQL filters on
user_id alone. -/
def getLastResultByUserId (userId : Int) (tbl : SessionsTable) : Option String :=
  match latestByActivity (tbl.filter fun r => r.userId = userId ∧ r.lastResult ≠ none) with
  | none => none
  | some r => r.lastResult

/-- The session row created for user 1 under the first bot
(models.Session carries a bot_id field, but record_session does not persist
it and the table has no column for it). -/
def botASessionRow : SessionRow :=
  { sessionId := "sess-a", userId := 1, state := "idle", resumeId := none,
    lastResult := none, jsonlLastTs := none, jsonlLastHash := none,
    lastChatId := none, createdAt := 0, lastActivity := 1 }

/-- The session row created for the same user 1 under the second bot. -/
def botBSessionRow : SessionRow :=
  { sessionId := "sess-b", userId := 1, state := "idle", resumeId := none,
    lastResult := none, jsonlLastTs := none, jsonlLastHash := none,
    lastChatId := none, createdAt := 0, lastActivity := 2 }

/-- The scenario of tests/test_store_bot_isolation.py: both bots' sessions
for user 1 are recorded, then the first bot's session stores result a and
the second bot's session stores result b (later activity). -/
def botIsolationTable : SessionsTable :=
  updateSessionLastResult 4 "sess-b" (some "b")
    (updateSessionLastResult 3 "sess-a" (some "a")
      (recordSession 2 botBSessionRow (recordSession 1 botASessionRow [])))

/-- C1: the store keeps both per-bot session rows, but its last-result
lookup is keyed by user id alone, so the single query any bot can issue for
user 1 returns the result b written under the other bot; the result a
recorded for the first bot's session is unreachable through the lookup.
The repository's own test test_store_bot_isolation.py expects a bot-keyed
lookup returning a for one bot and b for the other. -/
theorem store_lookup_ignores_bot :
    (botIsolationTable.map fun r => (r.sessionId, r.lastResult))
      = [("sess-a", some "a"), ("sess-b", some "b")]
    ∧ getLastResultByUserId 1 botIsolationTable = some "b" := by
  constructor
  · rfl
  · rfl
